import Mathlib

/-!
# Mandelbrot with dynamic block assignment (mandel_dynamique.c, mandel_dyn.c)

A shallow embedding of the two MPI programs of the repository.

Modelling conventions.
* A C `int` is an `Int`; where the 32-bit representation matters (`swap`, the
  file header) the value is reduced modulo `2^32` explicitly.
* A C `double` is an exact rational (`ℚ`): rounding, infinities and NaN are
  outside the model.
* Image dimensions (`w`, `h`, `nlin`) are natural numbers.
* A byte is a `Nat` below 256; a byte stream is a `List Nat`.
* The image buffer `ima` is a map from the offset relative to the address
  returned by `malloc` to the byte stored there, `none` for a cell that has
  never been written.
* The order in which `MPI_Probe(MPI_ANY_SOURCE, ...)` delivers the workers'
  results is a schedule: the list of the source ranks, one per iteration of
  the coordinator's receive loop.
-/

namespace Mandel

/-! ## 32-bit integers and `swap` -/

/-- Range of a C `int` (32 bits, two's complement). -/
def isInt32 (v : Int) : Prop := -2147483648 ≤ v ∧ v ≤ 2147483647

instance (v : Int) : Decidable (isInt32 v) := by
  unfold isInt32; exact inferInstance

/-- Byte number `k` (address order, little-endian host) of the `int` `i`. -/
def octet (i : Int) (k : Nat) : Nat := (i % 4294967296).toNat / 256 ^ k % 256

/-- The `int` whose four bytes, in address order on a little-endian host,
are `b0 b1 b2 b3`. -/
def entierDe (b0 b1 b2 b3 : Nat) : Int :=
  let u : Int := (b0 : Int) + 256 * b1 + 65536 * b2 + 16777216 * b3
  if u < 2147483648 then u else u - 4294967296

/-- The function `swap`: `o` starts at the last byte of `init` and walks down while
`d` walks up through `conv` (`*d++ = *o--`, four times). -/
def swap (i : Int) : Int :=
  entierDe (octet i 3) (octet i 2) (octet i 1) (octet i 0)

/-- The four bytes of an `int` as `fwrite` finds them in memory. -/
def octetsHote (i : Int) : List Nat := [octet i 0, octet i 1, octet i 2, octet i 3]

/-- Modelled from the spec: the magic number of `rasterfile.h`, which is not among
the sources; the spec gives `0x59A66A95`. -/
def RAS_MAGIC : Int := 0x59A66A95

/-- Modelled from the spec: `struct rasterfile` of `rasterfile.h`, which is not
among the sources; eight `int` fields in the order the spec lists them (magic
number, width, height, depth, length, type, map type, map length). -/
structure rasterfile where
  ras_magic : Int
  ras_width : Int
  ras_height : Int
  ras_depth : Int
  ras_length : Int
  ras_type : Int
  ras_maptype : Int
  ras_maplength : Int

/-- What the sources use without defining it: the two remaining constants of
`rasterfile.h` and the result of `cos_composante`, whose body calls the
floating-point `cos` of libm. -/
structure Externes where
  RT_STANDARD : Int
  RMT_EQUAL_RGB : Int
  cos_composante : Int → ℚ → Nat

/-- `COMPOSANTE_ROUGE(i)` under `COS_COLOR`; the result is an `unsigned char`. -/
def COMPOSANTE_ROUGE (E : Externes) (i : Int) : Nat := E.cos_composante i 13 % 256

/-- `COMPOSANTE_VERT(i)` under `COS_COLOR`. -/
def COMPOSANTE_VERT (E : Externes) (i : Int) : Nat := E.cos_composante i 5 % 256

/-- `COMPOSANTE_BLEU(i)` under `COS_COLOR`. -/
def COMPOSANTE_BLEU (E : Externes) (i : Int) : Nat := E.cos_composante (i + 10) 7 % 256

/-- The loop `while (i--) { o = f(i); fwrite(&o, 1, 1, fd); }` entered with the
given value of `i`: the test reads `i`, then decrements it, and the body sees
the decremented value. -/
def boucle_palette (f : Int → Nat) : Nat → List Nat
  | 0 => []
  | i + 1 => f (i : Int) :: boucle_palette f i

/-- The header that `sauver_rasterfile` fills in. -/
def entete (E : Externes) (largeur hauteur : Int) : rasterfile where
  ras_magic := swap RAS_MAGIC
  ras_width := swap largeur
  ras_height := swap hauteur
  ras_depth := swap 8
  ras_length := swap (largeur * hauteur)
  ras_type := swap E.RT_STANDARD
  ras_maptype := swap E.RMT_EQUAL_RGB
  ras_maplength := swap (256 * 3)

/-- Memory image of a `struct rasterfile`: the fields in order, four bytes each. -/
def octetsEntete (f : rasterfile) : List Nat :=
  octetsHote f.ras_magic ++ octetsHote f.ras_width ++ octetsHote f.ras_height ++
  octetsHote f.ras_depth ++ octetsHote f.ras_length ++ octetsHote f.ras_type ++
  octetsHote f.ras_maptype ++ octetsHote f.ras_maplength

/-- The function `sauver_rasterfile`: the bytes written to the file, or `none` when
`fopen` fails (`exit(1)`). The last `fwrite` takes `largeur*hauteur` bytes
from `p`. -/
def sauver_rasterfile (E : Externes) (fopen_ok : Bool) (largeur hauteur : Int)
    (p : List Nat) : Option (List Nat) :=
  if fopen_ok then
    some (octetsEntete (entete E largeur hauteur)
      ++ boucle_palette (COMPOSANTE_ROUGE E) 256
      ++ boucle_palette (COMPOSANTE_VERT E) 256
      ++ boucle_palette (COMPOSANTE_BLEU E) 256
      ++ p.take (largeur * hauteur).toNat)
  else none

/-! ## The escape-time kernel -/

/-- The `for` loop of `xy2color`. The first argument is `prof - i`, the number of
iterations left before the test `i < prof` fails; the result is the value of
`i` when the loop is left, by `break` or by the test. -/
def xy2color_boucle (a b : ℚ) : Nat → Int → ℚ → ℚ → Int
  | 0, i, _, _ => i
  | n + 1, i, x, y =>
    let temp := x
    let x2 := x * x
    let y2 := y * y
    let x' := x2 - y2 + a
    let y' := 2 * temp * y + b
    if x2 + y2 ≥ 4 then i else xy2color_boucle a b n (i + 1) x' y'

/-- The function `xy2color`. -/
def xy2color (a b : ℚ) (prof : Int) : Nat :=
  let i := xy2color_boucle a b prof.toNat 0 0 0
  if i = prof then 255 else (i % 255).toNat

/-! ## Parameters shared by the coordinator and the workers -/

/-- Rank of the coordinator. -/
def MAITRE : Nat := 0

/-- The sentinel `int stop = -1;` (`fin_bloc` in mandel_dyn.c). -/
def stop : Int := -1

/-- The values `main` reads from the command line. -/
structure Params where
  w : Nat
  h : Nat
  xmin : ℚ
  ymin : ℚ
  xmax : ℚ
  ymax : ℚ
  prof : Int
  nlin : Nat

/-- The step `xinc = (xmax - xmin) / (w-1)`. -/
def Params.xinc (P : Params) : ℚ := (P.xmax - P.xmin) / (((P.w : Int) - 1 : Int) : ℚ)

/-- The step `yinc = (ymax - ymin) / (h-1)`. -/
def Params.yinc (P : Params) : ℚ := (P.ymax - P.ymin) / (((P.h : Int) - 1 : Int) : ℚ)

/-! ## The worker of mandel_dynamique.c -/

/-- The inner loop `for (j = 0; j < w; j++)`: the first argument is the number of
columns left, the second the current `x`. -/
def ligne (P : Params) (y : ℚ) : Nat → ℚ → List Nat
  | 0, _ => []
  | n + 1, x => xy2color x y P.prof :: ligne P y n (x + P.xinc)

/-- The outer loop `for (i = 0; i < nlin; i++)`: the first argument is the number
of rows left, the second the current `y`; `pima_loc` advances through the
local buffer, so the rows follow one another. -/
def lignes (P : Params) : Nat → ℚ → List Nat
  | 0, _ => []
  | n + 1, y => ligne P y P.w P.xmin ++ lignes P n (y + P.yinc)

/-- The block a worker computes for `num_bloc`, starting from
`y = ymin + nlin*num_bloc*yinc`. -/
def traiter_bloc (P : Params) (num_bloc : Int) : List Nat :=
  lignes P P.nlin (P.ymin + (((P.nlin : Int) * num_bloc : Int) : ℚ) * P.yinc)

/-- One turn of the worker's loop on receiving `num_bloc`: `none` when it is the
sentinel (the worker leaves its loop and sends nothing), otherwise the two
messages it sends back, the block number and the block. -/
def ouvrier (P : Params) (num_bloc : Int) : Option (Int × List Nat) :=
  if num_bloc = -1 then none else some (num_bloc, traiter_bloc P num_bloc)

/-! ## The coordinator of mandel_dynamique.c -/

/-- What the coordinator does that can be observed from outside. -/
inductive Evenement where
  /-- The coordinator sends one `int` with `TAG_NUM_BLOC` to a rank. -/
  | envoi (dest : Nat) (valeur : Int)
  /-- The coordinator receives the result for a block number from a rank. -/
  | reception (source : Nat) (num_bloc : Int)
  /-- The coordinator calls `sauver_rasterfile("mandel.ras", w, h, ima)`. -/
  | sauvegarde (largeur hauteur : Nat)
  /-- A diagnostic on standard error followed by `return`. -/
  | erreur
  deriving DecidableEq

/-- Store a received block at `ima + debut`. -/
def ecrire (ima : Int → Option Nat) (debut : Int) (bloc : List Nat) : Int → Option Nat :=
  fun k => if debut ≤ k ∧ k < debut + bloc.length then bloc[(k - debut).toNat]? else ima k

/-- Remove the oldest occurrence of the message `m` from the messages awaited. -/
def retirer (m : Nat × Int) : List (Nat × Int) → List (Nat × Int)
  | [] => []
  | x :: l => if x = m then l else x :: retirer m l

/-- State of the coordinator together with the messages it has sent that have
not been answered yet (`attente`, in sending order; MPI keeps the order
between two given ranks). -/
structure Etat where
  num_bloc : Int
  nBloc_recu : Int
  finCalc : Int
  ima : Int → Option Nat
  attente : List (Nat × Int)
  trace : List Evenement

/-- State at the declaration of the variables. -/
def Etat.initial : Etat where
  num_bloc := 0
  nBloc_recu := 0
  finCalc := 0
  ima := fun _ => none
  attente := []
  trace := []

/-- The call `MPI_Send(&v, 1, MPI_INT, dest, TAG_NUM_BLOC, MPI_COMM_WORLD)`. -/
def envoyer (e : Etat) (dest : Nat) (v : Int) : Etat :=
  { e with attente := e.attente ++ [(dest, v)], trace := e.trace ++ [Evenement.envoi dest v] }

/-- The priming loop `for (i = 0; i < p; i++) if (i != MAITRE) { send; num_bloc += 1; }`. -/
def amorcer (p : Nat) (e : Etat) : Etat :=
  (List.range p).foldl
    (fun e i => if i ≠ MAITRE then { envoyer e i e.num_bloc with num_bloc := e.num_bloc + 1 } else e)
    e

/-- One iteration of the receive loop when `MPI_Probe` reports `rank_src`. The
result is `none` when rank `rank_src` has no result to deliver: no message of
the coordinator is waiting for it, or the oldest one is the sentinel. -/
def iteration (P : Params) (nBloc : Int) (e : Etat) (rank_src : Nat) : Option Etat :=
  match e.attente.find? (fun m => m.1 = rank_src) with
  | none => none
  | some m =>
    match ouvrier P m.2 with
    | none => none
    | some (num_bloc_rec, bloc) =>
      if rank_src ≠ MAITRE then
        let e1 : Etat :=
          { e with
            ima := ecrire e.ima (num_bloc_rec * P.nlin * P.w) bloc
            nBloc_recu := e.nBloc_recu + 1
            attente := retirer m e.attente
            trace := e.trace ++ [Evenement.reception rank_src num_bloc_rec] }
        let e2 : Etat :=
          if e1.num_bloc ≥ nBloc then envoyer e1 rank_src stop
          else { envoyer e1 rank_src e1.num_bloc with num_bloc := e1.num_bloc + 1 }
        some (if e2.nBloc_recu = nBloc then { e2 with finCalc := -1 } else e2)
      else some e

/-- The loop `while (finCalc == 0)`, the sources reported by `MPI_Probe` being read
from `ordre`. The result is `none` when the loop is still waiting once `ordre`
is used up, or when `ordre` names a rank with nothing to deliver. -/
def boucle (P : Params) (nBloc : Int) : List Nat → Etat → Option Etat
  | [], e => if e.finCalc = 0 then none else some e
  | r :: reste, e =>
    if e.finCalc = 0 then
      match iteration P nBloc e r with
      | none => none
      | some e' => boucle P nBloc reste e'
    else some e

/-- The coordinator's branch of `main` with `p` processes: `nBloc = h / nlin`
(a division by zero has no outcome), priming, receive loop, then the call of
`sauver_rasterfile`. The allocation of `ima` is taken to succeed. -/
def maitre (P : Params) (p : Nat) (ordre : List Nat) : Option Etat :=
  if P.nlin = 0 then none
  else
    let nBloc : Int := ((P.h / P.nlin : Nat) : Int)
    match boucle P nBloc ordre (amorcer p Etat.initial) with
    | none => none
    | some e => some { e with trace := e.trace ++ [Evenement.sauvegarde P.w P.h] }

/-- Block numbers the coordinator has received, in order of arrival. -/
def recus : List Evenement → List Int
  | [] => []
  | Evenement.reception _ b :: t => b :: recus t
  | _ :: t => recus t

/-- Values the coordinator has sent, in order. -/
def envoyes : List Evenement → List Int
  | [] => []
  | Evenement.envoi _ v :: t => v :: envoyes t
  | _ :: t => envoyes t

/-! ## The coordinator of mandel_dyn.c -/

/-- State of the coordinator of mandel_dyn.c; `s` has no value before the first
`MPI_Probe`. -/
structure EtatDyn where
  num_bloc : Int
  ima : Int → Option Nat
  s : Option Nat
  attente : List (Nat × Int)
  trace : List Evenement

/-- The same `MPI_Send`, on the state of mandel_dyn.c. -/
def envoyer_dyn (e : EtatDyn) (dest : Nat) (v : Int) : EtatDyn :=
  { e with attente := e.attente ++ [(dest, v)], trace := e.trace ++ [Evenement.envoi dest v] }

/-- The priming loop of mandel_dyn.c, guarded by `num_bloc <= nb_proc`. -/
def amorcer_dyn (nb_proc : Int) (P : Nat) (e : EtatDyn) : EtatDyn :=
  (List.range P).foldl
    (fun e k =>
      if k ≠ MAITRE then
        if e.num_bloc ≤ nb_proc then
          { envoyer_dyn e k e.num_bloc with num_bloc := e.num_bloc + 1 }
        else e
      else e)
    e

/-- The loop `while (num_bloc <= nb_proc)` of mandel_dyn.c. The worker of that
file answers every number it receives with that number and `w * nb_lignes`
bytes; `contenu` gives those bytes. -/
def boucle_dyn (w nb_lignes : Nat) (contenu : Nat → Int → List Nat) (nb_proc : Int) :
    List Nat → EtatDyn → Option EtatDyn
  | [], e => if e.num_bloc ≤ nb_proc then none else some e
  | src :: reste, e =>
    if e.num_bloc ≤ nb_proc then
      match e.attente.find? (fun m => m.1 = src) with
      | none => none
      | some m =>
        if src ≠ MAITRE then
          let num_bloc_fait := m.2
          let e1 : EtatDyn :=
            { e with
              s := some src
              ima := ecrire e.ima (num_bloc_fait * w * nb_lignes) (contenu src num_bloc_fait)
              attente := retirer m e.attente
              trace := e.trace ++ [Evenement.reception src num_bloc_fait] }
          let e2 : EtatDyn := { envoyer_dyn e1 src e1.num_bloc with num_bloc := e1.num_bloc + 1 }
          boucle_dyn w nb_lignes contenu nb_proc reste e2
        else boucle_dyn w nb_lignes contenu nb_proc reste { e with s := some src }
    else some e

/-- The coordinator's branch of `main` in mandel_dyn.c, where `nb_lignes` is 8:
the tests `P > 0` and `h % nb_lignes == 0`, priming, the loop, the sentinel
sent to the last source `s`, and the call of `sauver_rasterfile`. Reading `s`
before any `MPI_Probe` has no outcome. The allocation is taken to succeed. -/
def maitre_dyn (w h : Nat) (contenu : Nat → Int → List Nat) (P : Nat) (ordre : List Nat) :
    Option EtatDyn :=
  let nb_lignes : Nat := 8
  let e0 : EtatDyn := { num_bloc := 0, ima := fun _ => none, s := none, attente := [], trace := [] }
  if P > 0 then
    if h % nb_lignes = 0 then
      let nb_proc : Int := ((h / nb_lignes : Nat) : Int)
      match boucle_dyn w nb_lignes contenu nb_proc ordre (amorcer_dyn nb_proc P e0) with
      | none => none
      | some e =>
        match e.s with
        | none => none
        | some s =>
          let e' := envoyer_dyn e s stop
          some { e' with trace := e'.trace ++ [Evenement.sauvegarde w h] }
    else some { e0 with trace := [Evenement.erreur] }
  else some { e0 with trace := [Evenement.erreur] }

/-! ## Reference definitions, following the specification -/

/-- Field number `k` of a header read back from a byte stream on the same
little-endian host, before any byte reversal. -/
def lire_entier (flux : List Nat) (k : Nat) : Int :=
  entierDe (flux.getD (4 * k) 0) (flux.getD (4 * k + 1) 0) (flux.getD (4 * k + 2) 0)
    (flux.getD (4 * k + 3) 0)

/-! ## Concrete inputs -/

/-- A grid of 4 by 4 pixels over `[-1,1]²`, 5 iterations, blocks of 2 rows. -/
def grille4 : Params :=
  { w := 4, h := 4, xmin := -1, ymin := -1, xmax := 1, ymax := 1, prof := 5, nlin := 2 }

/-- A grid of 3 by 8 pixels with `nlin` rows in each block. -/
def grille8 (nlin : Nat) : Params :=
  { w := 3, h := 8, xmin := -2, ymin := -2, xmax := 2, ymax := 2, prof := 4, nlin := nlin }

/-- A grid whose height, 10, is not a multiple of its block height, 3. -/
def grille10 : Params :=
  { w := 3, h := 10, xmin := -2, ymin := -2, xmax := 2, ymax := 2, prof := 4, nlin := 3 }

/-- Values for what the sources leave undefined, used in examples: the usual
constants of `rasterfile.h` and a linear stand-in for `cos_composante`. -/
def externes0 : Externes :=
  { RT_STANDARD := 1, RMT_EQUAL_RGB := 1, cos_composante := fun i _ => i.toNat }

/-! ## Invariants of the receive loop of mandel_dynamique.c -/

/-- Block numbers among the messages that have not been answered yet, the
sentinel left out. -/
def reels (l : List (Nat × Int)) : List Int := (l.map Prod.snd).filter (fun v => v ≠ -1)

/-- The colour of pixel `(i, j)` by the closed formulas: row `i`, column `j`. -/
def pixel (P : Params) (i j : Nat) : Nat :=
  xy2color (P.xmin + j * P.xinc) (P.ymin + i * P.yinc) P.prof

/-- What holds at every test of `finCalc == 0` when there are `W` workers and
`W ≤ nBloc`: the block numbers received or still awaited are exactly those
handed out, no rank is awaited twice, and the loop stops at `nBloc` results. -/
structure Invariant (nBloc : Int) (W : Nat) (e : Etat) : Prop where
  borne : 0 ≤ e.num_bloc ∧ e.num_bloc ≤ nBloc
  distribues : (recus e.trace ++ reels e.attente).Perm
    ((List.range e.num_bloc.toNat).map (fun n : Nat => (n : Int)))
  compte : e.nBloc_recu = (recus e.trace).length
  rangs : (e.attente.map Prod.fst).Nodup
  ouvriers : ∀ m ∈ e.attente, m.1 ≠ MAITRE
  avance : e.num_bloc = nBloc ∨ e.nBloc_recu + W ≤ e.num_bloc
  fin : (e.finCalc = 0 ∧ e.nBloc_recu < nBloc) ∨ (e.finCalc ≠ 0 ∧ e.nBloc_recu = nBloc)
  assignes : (envoyes e.trace).filter (fun v => v ≠ -1) =
    (List.range e.num_bloc.toNat).map (fun n : Nat => (n : Int))
  sentinelles : (((envoyes e.trace).filter (fun v => v = -1)).length : Int) + e.num_bloc
    = e.nBloc_recu + W

/-- What holds of the image buffer at every test of `finCalc == 0`: a cell that
has been written holds the pixel of its row and column, and the cells of
every block received have been written. -/
structure ImageJuste (P : Params) (e : Etat) : Prop where
  juste : ∀ i j : Nat, j < P.w → ∀ v, e.ima ((i * P.w + j : Nat) : Int) = some v →
    v = pixel P i j
  ecrit : ∀ B : Nat, (B : Int) ∈ recus e.trace → ∀ r j : Nat, r < P.nlin → j < P.w →
    e.ima (((B * P.nlin + r) * P.w + j : Nat) : Int) = some (pixel P (B * P.nlin + r) j)

/-! ## `swap` and the header -/

theorem octet_lt (i : Int) (k : Nat) : octet i k < 256 := Nat.mod_lt _ (by norm_num)

theorem toNat_entierDe (b0 b1 b2 b3 : Nat) (h0 : b0 < 256) (h1 : b1 < 256) (h2 : b2 < 256)
    (h3 : b3 < 256) :
    (entierDe b0 b1 b2 b3 % 4294967296).toNat = b0 + 256 * b1 + 65536 * b2 + 16777216 * b3 := by
  unfold entierDe
  simp only
  split <;> omega

theorem octet_entierDe (b0 b1 b2 b3 : Nat) (h0 : b0 < 256) (h1 : b1 < 256) (h2 : b2 < 256)
    (h3 : b3 < 256) :
    octet (entierDe b0 b1 b2 b3) 0 = b0 ∧ octet (entierDe b0 b1 b2 b3) 1 = b1 ∧
    octet (entierDe b0 b1 b2 b3) 2 = b2 ∧ octet (entierDe b0 b1 b2 b3) 3 = b3 := by
  unfold octet
  rw [toNat_entierDe b0 b1 b2 b3 h0 h1 h2 h3]
  norm_num
  omega

theorem entierDe_octet (v : Int) (h : isInt32 v) :
    entierDe (octet v 0) (octet v 1) (octet v 2) (octet v 3) = v := by
  unfold isInt32 at h
  unfold entierDe octet
  norm_num
  split <;> omega

theorem isInt32_entierDe (b0 b1 b2 b3 : Nat) (h0 : b0 < 256) (h1 : b1 < 256) (h2 : b2 < 256)
    (h3 : b3 < 256) : isInt32 (entierDe b0 b1 b2 b3) := by
  unfold isInt32 entierDe
  simp only
  split <;> omega

theorem isInt32_swap (v : Int) : isInt32 (swap v) :=
  isInt32_entierDe _ _ _ _ (octet_lt _ _) (octet_lt _ _) (octet_lt _ _) (octet_lt _ _)

theorem swap_swap (v : Int) (h : isInt32 v) : swap (swap v) = v := by
  unfold swap
  obtain ⟨e0, e1, e2, e3⟩ := octet_entierDe (octet v 3) (octet v 2) (octet v 1) (octet v 0)
    (octet_lt _ _) (octet_lt _ _) (octet_lt _ _) (octet_lt _ _)
  rw [e0, e1, e2, e3]
  exact entierDe_octet v h

theorem length_boucle_palette (f : Int → Nat) (n : Nat) : (boucle_palette f n).length = n := by
  induction n with
  | zero => rfl
  | succ n ih => simp [boucle_palette, ih]

theorem lire_entier_octetsHote (v : Int) (h : isInt32 v) (suite : List Nat) :
    lire_entier (octetsHote v ++ suite) 0 = v := by
  simp [lire_entier, octetsHote, List.getD]
  exact entierDe_octet v h

theorem lire_entier_zero (a b c d : Nat) (l : List Nat) :
    lire_entier (a :: b :: c :: d :: l) 0 = entierDe a b c d := rfl

theorem getD_plus4 (a b c d : Nat) (l : List Nat) (n : Nat) :
    (a :: b :: c :: d :: l).getD (n + 4) 0 = l.getD n 0 := by
  simp only [List.getD_cons_succ]

theorem lire_entier_succ (a b c d : Nat) (l : List Nat) (k : Nat) :
    lire_entier (a :: b :: c :: d :: l) (k + 1) = lire_entier l k := by
  unfold lire_entier
  rw [show 4 * (k + 1) = 4 * k + 4 by ring, show 4 * k + 4 + 1 = 4 * k + 1 + 4 by ring,
    show 4 * k + 4 + 2 = 4 * k + 2 + 4 by ring, show 4 * k + 4 + 3 = 4 * k + 3 + 4 by ring]
  simp only [getD_plus4]

theorem lire_entier_octetsHote_succ (v : Int) (l : List Nat) (k : Nat) :
    lire_entier (octetsHote v ++ l) (k + 1) = lire_entier l k := by
  unfold octetsHote
  simp only [List.cons_append, List.nil_append, lire_entier_succ]

theorem lire_entier_entete (E : Externes) (largeur hauteur : Int) (suite : List Nat) :
    lire_entier (octetsEntete (entete E largeur hauteur) ++ suite) 0 = swap RAS_MAGIC ∧
    lire_entier (octetsEntete (entete E largeur hauteur) ++ suite) 1 = swap largeur ∧
    lire_entier (octetsEntete (entete E largeur hauteur) ++ suite) 2 = swap hauteur ∧
    lire_entier (octetsEntete (entete E largeur hauteur) ++ suite) 3 = swap 8 := by
  unfold octetsEntete entete
  simp only [List.append_assoc]
  refine ⟨?_, ?_, ?_, ?_⟩
  · exact lire_entier_octetsHote _ (isInt32_swap _) _
  · rw [show (1 : Nat) = 0 + 1 from rfl, lire_entier_octetsHote_succ]
    exact lire_entier_octetsHote _ (isInt32_swap _) _
  · rw [show (2 : Nat) = 0 + 1 + 1 from rfl, lire_entier_octetsHote_succ,
      lire_entier_octetsHote_succ]
    exact lire_entier_octetsHote _ (isInt32_swap _) _
  · rw [show (3 : Nat) = 0 + 1 + 1 + 1 from rfl, lire_entier_octetsHote_succ,
      lire_entier_octetsHote_succ, lire_entier_octetsHote_succ]
    exact lire_entier_octetsHote _ (isInt32_swap _) _

theorem sauver_rasterfile_eq (E : Externes) (largeur hauteur : Int) (p : List Nat) :
    sauver_rasterfile E true largeur hauteur p =
      some (octetsEntete (entete E largeur hauteur)
      ++ boucle_palette (COMPOSANTE_ROUGE E) 256
      ++ boucle_palette (COMPOSANTE_VERT E) 256
      ++ boucle_palette (COMPOSANTE_BLEU E) 256
      ++ p.take (largeur * hauteur).toNat) := by
  unfold sauver_rasterfile
  exact if_pos rfl

/-- C8: `swap` is an involution on 32-bit integers, and reversing again the
bytes of the magic, width, height and depth fields of the header written by
`sauver_rasterfile` gives back `RAS_MAGIC`, the width, the height and 8. -/
theorem swap_aller_retour (v : Int) (hv : isInt32 v) (E : Externes) (largeur hauteur : Int)
    (hl : isInt32 largeur) (hh : isInt32 hauteur) (p flux : List Nat)
    (hf : sauver_rasterfile E true largeur hauteur p = some flux) :
    swap (swap v) = v ∧
    swap (lire_entier flux 0) = RAS_MAGIC ∧ swap (lire_entier flux 1) = largeur ∧
    swap (lire_entier flux 2) = hauteur ∧ swap (lire_entier flux 3) = 8 := by
  rw [sauver_rasterfile_eq] at hf
  simp only [List.append_assoc] at hf
  injection hf with hf
  subst hf
  obtain ⟨h0, h1, h2, h3⟩ := lire_entier_entete E largeur hauteur
    (boucle_palette (COMPOSANTE_ROUGE E) 256 ++ (boucle_palette (COMPOSANTE_VERT E) 256 ++
      (boucle_palette (COMPOSANTE_BLEU E) 256 ++ p.take (largeur * hauteur).toNat)))
  rw [h0, h1, h2, h3]
  exact ⟨swap_swap v hv, swap_swap _ (by unfold isInt32 RAS_MAGIC; omega), swap_swap _ hl,
    swap_swap _ hh, swap_swap _ (by unfold isInt32; omega)⟩

theorem swap_aller_retour_witness :
    isInt32 (-5) ∧ isInt32 800 ∧ isInt32 600 ∧
    (∃ flux, sauver_rasterfile externes0 true 800 600 [] = some flux ∧
      swap (swap (-5)) = -5 ∧
      swap (lire_entier flux 0) = RAS_MAGIC ∧ swap (lire_entier flux 1) = 800 ∧
      swap (lire_entier flux 2) = 600 ∧ swap (lire_entier flux 3) = 8) :=
  ⟨by decide, by decide, by decide, _, sauver_rasterfile_eq _ _ _ _,
    swap_aller_retour (-5) (by decide) externes0 800 600 (by decide) (by decide) [] _
      (sauver_rasterfile_eq _ _ _ _)⟩

/-! ## The escape-time kernel against the orbit -/

theorem length_ligne (P : Params) (y : ℚ) (n : Nat) : ∀ x, (ligne P y n x).length = n := by
  induction n with
  | zero => intro x; rfl
  | succ n ih => intro x; simp [ligne, ih]

theorem length_lignes (P : Params) (n : Nat) : ∀ y, (lignes P n y).length = n * P.w := by
  induction n with
  | zero => intro y; simp [lignes]
  | succ n ih =>
    intro y
    simp only [lignes, List.length_append, length_ligne, ih]
    ring

/-- Column `j` of a row: `x` has been increased `j` times by `xinc`. -/
theorem getElem?_ligne (P : Params) (y : ℚ) (n : Nat) :
    ∀ (x : ℚ) (j : Nat), j < n →
      (ligne P y n x)[j]? = some (xy2color (x + j * P.xinc) y P.prof) := by
  induction n with
  | zero => intro x j hj; omega
  | succ n ih =>
    intro x j hj
    cases j with
    | zero => simp [ligne]
    | succ j =>
      simp only [ligne, List.getElem?_cons_succ]
      rw [ih (x + P.xinc) j (by omega)]
      congr 2
      push_cast
      ring

/-- Row `r`, column `j` of a run of rows: `y` has been increased `r` times by
`yinc`. -/
theorem getElem?_lignes (P : Params) (n : Nat) :
    ∀ (y : ℚ) (r j : Nat), r < n → j < P.w →
      (lignes P n y)[r * P.w + j]? =
        some (xy2color (P.xmin + j * P.xinc) (y + r * P.yinc) P.prof) := by
  induction n with
  | zero => intro y r j hr; omega
  | succ n ih =>
    intro y r j hr hj
    cases r with
    | zero =>
      simp only [lignes, Nat.zero_mul, Nat.zero_add]
      rw [List.getElem?_append_left (by rw [length_ligne]; exact hj)]
      rw [getElem?_ligne P y P.w P.xmin j hj]
      simp
    | succ r =>
      simp only [lignes]
      rw [List.getElem?_append_right (by rw [length_ligne]; nlinarith)]
      rw [length_ligne]
      have : (r + 1) * P.w + j - P.w = r * P.w + j := by
        rw [Nat.succ_mul]; omega
      rw [this, ih (y + P.yinc) r j (by omega) hj]
      congr 2
      push_cast
      ring

theorem recus_append (s t : List Evenement) : recus (s ++ t) = recus s ++ recus t := by
  induction s with
  | nil => rfl
  | cons a s ih => cases a <;> simp [recus, ih]

theorem envoyes_append (s t : List Evenement) : envoyes (s ++ t) = envoyes s ++ envoyes t := by
  induction s with
  | nil => rfl
  | cons a s ih => cases a <;> simp [envoyes, ih]

theorem reels_append (s t : List (Nat × Int)) : reels (s ++ t) = reels s ++ reels t := by
  simp [reels]

theorem amorcer_succ (p : Nat) (e : Etat) :
    amorcer (p + 1) e =
      if p ≠ MAITRE then
        { envoyer (amorcer p e) p (amorcer p e).num_bloc with
          num_bloc := (amorcer p e).num_bloc + 1 }
      else amorcer p e := by
  unfold amorcer
  rw [List.range_succ, List.foldl_append]
  rfl

/-- After priming `W` workers, worker `i + 1` has been sent block number `i`. -/
theorem amorcer_initial (W : Nat) :
    amorcer (W + 1) Etat.initial =
      { num_bloc := (W : Int), nBloc_recu := 0, finCalc := 0, ima := fun _ => none,
        attente := (List.range W).map (fun i => (i + 1, (i : Int))),
        trace := (List.range W).map (fun i => Evenement.envoi (i + 1) (i : Int)) } := by
  induction W with
  | zero => rfl
  | succ W ih =>
    rw [amorcer_succ, ih, if_pos (by unfold MAITRE; omega)]
    simp [envoyer, List.range_succ]

theorem recus_map_envoi (l : List Nat) :
    recus (l.map (fun i => Evenement.envoi (i + 1) (i : Int))) = [] := by
  induction l with
  | nil => rfl
  | cons a l ih => simpa [recus] using ih

theorem envoyes_map_envoi (l : List Nat) :
    envoyes (l.map (fun i => Evenement.envoi (i + 1) (i : Int))) =
      l.map (fun n : Nat => (n : Int)) := by
  induction l with
  | nil => rfl
  | cons a l ih => simp [envoyes, ih]

theorem filter_reel_map_cast (l : List Nat) :
    (l.map (fun n : Nat => (n : Int))).filter (fun v => v ≠ -1) =
      l.map (fun n : Nat => (n : Int)) := by
  apply List.filter_eq_self.mpr
  intro v hv
  obtain ⟨n, _, rfl⟩ := List.mem_map.mp hv
  simp

theorem filter_stop_map_cast (l : List Nat) :
    (l.map (fun n : Nat => (n : Int))).filter (fun v => v = -1) = [] := by
  apply List.filter_eq_nil_iff.mpr
  intro v hv
  obtain ⟨n, _, rfl⟩ := List.mem_map.mp hv
  simp

/-- The invariant holds when the receive loop is entered. -/
theorem invariant_amorcer (nBloc : Int) (W : Nat) (h1 : 1 ≤ W) (h2 : (W : Int) ≤ nBloc) :
    Invariant nBloc W (amorcer (W + 1) Etat.initial) := by
  rw [amorcer_initial]
  refine
    { borne := ⟨by simp, h2⟩
      distribues := ?_
      compte := by simp [recus_map_envoi]
      rangs := ?_
      ouvriers := ?_
      avance := Or.inr (by simp)
      fin := Or.inl ⟨rfl, by simp; omega⟩
      assignes := ?_
      sentinelles := ?_ }
  · simp only [recus_map_envoi, List.nil_append, reels, List.map_map, Int.toNat_ofNat]
    rw [show (Prod.snd ∘ fun i : Nat => (i + 1, (i : Int))) = (fun n : Nat => (n : Int)) from rfl]
    rw [filter_reel_map_cast]
  · simp only [List.map_map]
    rw [show (Prod.fst ∘ fun i : Nat => (i + 1, (i : Int))) = (fun n : Nat => n + 1) from rfl]
    exact (List.nodup_range W).map (fun a b h => by simpa using h)
  · intro m hm
    obtain ⟨i, _, rfl⟩ := List.mem_map.mp hm
    simp [MAITRE]
  · simp only [envoyes_map_envoi, Int.toNat_ofNat]
    exact filter_reel_map_cast _
  · simp only [envoyes_map_envoi, filter_stop_map_cast]
    simp

/-- What one iteration of the receive loop does to each variable, `m` being the
oldest message awaited by the source. -/
theorem iteration_champs (P : Params) (nBloc : Int) (e e' : Etat) (r : Nat)
    (h : iteration P nBloc e r = some e') (hr : r ≠ MAITRE) :
    ∃ m : Nat × Int, m ∈ e.attente ∧ m.1 = r ∧ m.2 ≠ -1 ∧
      e'.trace = e.trace ++ [Evenement.reception r m.2,
        Evenement.envoi r (if e.num_bloc ≥ nBloc then -1 else e.num_bloc)] ∧
      e'.attente = retirer m e.attente ++ [(r, if e.num_bloc ≥ nBloc then -1 else e.num_bloc)] ∧
      e'.num_bloc = (if e.num_bloc ≥ nBloc then e.num_bloc else e.num_bloc + 1) ∧
      e'.nBloc_recu = e.nBloc_recu + 1 ∧
      e'.finCalc = (if e.nBloc_recu + 1 = nBloc then -1 else e.finCalc) ∧
      e'.ima = ecrire e.ima (m.2 * P.nlin * P.w) (traiter_bloc P m.2) := by
  unfold iteration at h
  cases hf : e.attente.find? (fun m => m.1 = r) with
  | none => rw [hf] at h; simp at h
  | some m =>
    rw [hf] at h
    have hmem : m ∈ e.attente := List.mem_of_find?_eq_some hf
    have hm1 : m.1 = r := by simpa using List.find?_some hf
    unfold ouvrier at h
    by_cases hs : m.2 = -1
    · simp [hs] at h
    · simp only [hs, if_false, hr, ne_eq, not_false_eq_true, if_true] at h
      injection h with h
      subst h
      refine ⟨m, hmem, hm1, hs, ?_⟩
      by_cases hn : e.num_bloc ≥ nBloc <;> by_cases hc : e.nBloc_recu + 1 = nBloc <;>
        simp [hn, hc, envoyer, stop]

theorem iteration_rang (P : Params) (nBloc : Int) (W : Nat) (e e' : Etat) (r : Nat)
    (hI : Invariant nBloc W e) (h : iteration P nBloc e r = some e') : r ≠ MAITRE := by
  intro hr
  unfold iteration at h
  cases hf : e.attente.find? (fun m => m.1 = r) with
  | none => rw [hf] at h; simp at h
  | some m =>
    have hmem : m ∈ e.attente := List.mem_of_find?_eq_some hf
    have hm1 : m.1 = r := by simpa using List.find?_some hf
    exact hI.ouvriers m hmem (hm1.trans hr)

theorem perm_cons_retirer (l : List (Nat × Int)) (m : Nat × Int) (hm : m ∈ l) :
    l.Perm (m :: retirer m l) := by
  induction l with
  | nil => simp at hm
  | cons x l ih =>
    unfold retirer
    by_cases hx : x = m
    · rw [if_pos hx, hx]
    · rw [if_neg hx]
      have hm' : m ∈ l := by
        rcases List.mem_cons.mp hm with h | h
        · exact absurd h.symm hx
        · exact h
      exact ((ih hm').cons x).trans (List.Perm.swap m x _)

theorem mem_of_mem_retirer (l : List (Nat × Int)) (m x : Nat × Int) (hx : x ∈ retirer m l) :
    x ∈ l := by
  induction l with
  | nil => simp [retirer] at hx
  | cons y l ih =>
    unfold retirer at hx
    by_cases hy : y = m
    · rw [if_pos hy] at hx
      exact List.mem_cons_of_mem _ hx
    · rw [if_neg hy] at hx
      rcases List.mem_cons.mp hx with h | h
      · rw [h]; exact List.mem_cons_self _ _
      · exact List.mem_cons_of_mem _ (ih h)

theorem reels_perm_retirer (l : List (Nat × Int)) (m : Nat × Int) (hm : m ∈ l) (hs : m.2 ≠ -1) :
    (reels l).Perm (m.2 :: reels (retirer m l)) := by
  have hp : l.Perm (m :: retirer m l) := perm_cons_retirer l m hm
  have := (hp.map Prod.snd).filter (fun v => decide (v ≠ -1))
  simpa [reels, hs] using this

theorem range_toNat_succ (n : Int) (hn : 0 ≤ n) :
    (List.range (n + 1).toNat).map (fun k : Nat => (k : Int)) =
      (List.range n.toNat).map (fun k : Nat => (k : Int)) ++ [n] := by
  have : (n + 1).toNat = n.toNat + 1 := by omega
  rw [this, List.range_succ, List.map_append]
  simp [Int.toNat_of_nonneg hn]

/-- One iteration of the receive loop keeps the invariant. -/
theorem invariant_iteration (P : Params) (nBloc : Int) (W : Nat) (e e' : Etat) (r : Nat)
    (hI : Invariant nBloc W e) (h0 : e.finCalc = 0)
    (h : iteration P nBloc e r = some e') : Invariant nBloc W e' := by
  have hr : r ≠ MAITRE := iteration_rang P nBloc W e e' r hI h
  obtain ⟨m, hmem, hm1, hs, htr, hat, hnb, hrec, hfin, _⟩ := iteration_champs P nBloc e e' r h hr
  have hlt : e.nBloc_recu < nBloc := by
    rcases hI.fin with ⟨_, h2⟩ | ⟨h1, _⟩
    · exact h2
    · exact absurd h0 h1
  have hb := hI.borne
  have hrecus : recus e'.trace = recus e.trace ++ [m.2] := by
    rw [htr, recus_append]; rfl
  have henv : envoyes e'.trace =
      envoyes e.trace ++ [if e.num_bloc ≥ nBloc then -1 else e.num_bloc] := by
    rw [htr, envoyes_append]; rfl
  have hpe := reels_perm_retirer e.attente m hmem hs
  have hdist : (recus e.trace ++ m.2 :: reels (retirer m e.attente)).Perm
      ((List.range e.num_bloc.toNat).map (fun n : Nat => (n : Int))) :=
    ((List.Perm.append_left (recus e.trace) hpe).symm).trans hI.distribues
  have hfst : (e.attente.map Prod.fst).Perm (r :: (retirer m e.attente).map Prod.fst) := by
    have := (perm_cons_retirer _ _ hmem).map Prod.fst
    simpa [hm1] using this
  have hnd := (hfst.nodup_iff).mp hI.rangs
  by_cases hn : e.num_bloc ≥ nBloc
  · simp only [hn, if_true] at htr hat hnb hfin henv
    refine
      { borne := by rw [hnb]; exact hb
        distribues := ?_
        compte := by rw [hrec, hrecus, hI.compte]; simp
        rangs := ?_
        ouvriers := ?_
        avance := Or.inl (by rw [hnb]; omega)
        fin := ?_
        assignes := ?_
        sentinelles := ?_ }
    · rw [hrecus, hat, hnb, reels_append]
      simpa [reels] using hdist
    · rw [hat, List.map_append]
      exact (List.perm_append_singleton _ _).nodup_iff.mpr hnd
    · intro m' hm'
      rw [hat] at hm'
      rcases List.mem_append.mp hm' with h' | h'
      · exact hI.ouvriers m' (mem_of_mem_retirer _ _ _ h')
      · simp at h'; rw [h']; exact hr
    · rw [hrec, hfin]
      by_cases hc : e.nBloc_recu + 1 = nBloc
      · right; simp [hc]
      · left; simp only [hc, if_false]; exact ⟨h0, by omega⟩
    · rw [henv, hnb, List.filter_append, hI.assignes]
      simp
    · rw [henv, hnb, hrec, List.filter_append, List.length_append]
      have := hI.sentinelles
      simp
      omega
  · simp only [hn, if_false] at htr hat hnb hfin henv
    have hne : e.num_bloc ≠ -1 := by omega
    have hav : e.nBloc_recu + W ≤ e.num_bloc := by
      rcases hI.avance with h' | h'
      · omega
      · exact h'
    refine
      { borne := by rw [hnb]; omega
        distribues := ?_
        compte := by rw [hrec, hrecus, hI.compte]; simp
        rangs := ?_
        ouvriers := ?_
        avance := Or.inr (by rw [hnb, hrec]; omega)
        fin := ?_
        assignes := ?_
        sentinelles := ?_ }
    · rw [hrecus, hat, hnb, reels_append, range_toNat_succ _ hb.1]
      have : reels [(r, e.num_bloc)] = [e.num_bloc] := by simp [reels, hne]
      rw [this]
      have := List.Perm.append_right [e.num_bloc] hdist
      simpa using this
    · rw [hat, List.map_append]
      exact (List.perm_append_singleton _ _).nodup_iff.mpr hnd
    · intro m' hm'
      rw [hat] at hm'
      rcases List.mem_append.mp hm' with h' | h'
      · exact hI.ouvriers m' (mem_of_mem_retirer _ _ _ h')
      · simp at h'; rw [h']; exact hr
    · rw [hrec, hfin]
      by_cases hc : e.nBloc_recu + 1 = nBloc
      · right; simp [hc]
      · left; simp only [hc, if_false]; exact ⟨h0, by omega⟩
    · rw [henv, hnb, List.filter_append, hI.assignes, range_toNat_succ _ hb.1]
      simp [hne]
    · rw [henv, hnb, hrec, List.filter_append, List.length_append]
      have := hI.sentinelles
      simp [hne]
      omega

/-- When the receive loop ends the invariant holds and `finCalc` is set. -/
theorem invariant_boucle (P : Params) (nBloc : Int) (W : Nat) (ordre : List Nat) :
    ∀ e e' : Etat, Invariant nBloc W e → boucle P nBloc ordre e = some e' →
      Invariant nBloc W e' ∧ e'.finCalc ≠ 0 := by
  induction ordre with
  | nil =>
    intro e e' hI h
    unfold boucle at h
    by_cases h0 : e.finCalc = 0
    · simp [h0] at h
    · simp only [h0, if_false] at h
      injection h with h
      subst h
      exact ⟨hI, h0⟩
  | cons r reste ih =>
    intro e e' hI h
    unfold boucle at h
    by_cases h0 : e.finCalc = 0
    · simp only [h0, if_true] at h
      cases hit : iteration P nBloc e r with
      | none => rw [hit] at h; simp at h
      | some e1 =>
        rw [hit] at h
        exact ih e1 e' (invariant_iteration P nBloc W e e1 r hI h0 hit) h
    · simp only [h0, if_false] at h
      injection h with h
      subst h
      exact ⟨hI, h0⟩

/-- As long as the loop waits, some worker has a result to deliver. -/
theorem iteration_possible (P : Params) (nBloc : Int) (W : Nat) (e : Etat) (hW : 1 ≤ W)
    (hI : Invariant nBloc W e) (h0 : e.finCalc = 0) :
    ∃ r e', iteration P nBloc e r = some e' := by
  have hlt : e.nBloc_recu < nBloc := by
    rcases hI.fin with ⟨_, h2⟩ | ⟨h1, _⟩
    · exact h2
    · exact absurd h0 h1
  have hlen := hI.distribues.length_eq
  simp only [List.length_append, List.length_map, List.length_range] at hlen
  have hb := hI.borne
  have hc := hI.compte
  have hpos : 0 < (reels e.attente).length := by
    rcases hI.avance with h' | h' <;> omega
  obtain ⟨v, hv⟩ := List.exists_mem_of_length_pos hpos
  unfold reels at hv
  obtain ⟨hv1, hv2⟩ := List.mem_filter.mp hv
  obtain ⟨m, hmem, rfl⟩ := List.mem_map.mp hv1
  have hs : m.2 ≠ -1 := by simpa using hv2
  cases hf : e.attente.find? (fun x => x.1 = m.1) with
  | none =>
    have := List.find?_eq_none.mp hf m hmem
    simp at this
  | some m' =>
    have hmem' : m' ∈ e.attente := List.mem_of_find?_eq_some hf
    have hm1 : m'.1 = m.1 := by simpa using List.find?_some hf
    have heq : m' = m := List.inj_on_of_nodup_map hI.rangs hmem' hmem hm1
    subst heq
    have hr : m'.1 ≠ MAITRE := hI.ouvriers m' hmem
    refine ⟨m'.1, ?_⟩
    unfold iteration
    rw [hf]
    simp [ouvrier, hs, hr]

/-- The receive loop can always be run to its end: there is an order in which
the results arrive, whatever the state the invariant allows. -/
theorem boucle_existe (P : Params) (nBloc : Int) (W : Nat) (hW : 1 ≤ W) (n : Nat) :
    ∀ e : Etat, Invariant nBloc W e → (nBloc - e.nBloc_recu).toNat ≤ n →
      ∃ ordre e', boucle P nBloc ordre e = some e' := by
  induction n with
  | zero =>
    intro e hI hn
    have h0 : e.finCalc ≠ 0 := by
      rcases hI.fin with ⟨_, h2⟩ | ⟨h1, _⟩
      · omega
      · exact h1
    exact ⟨[], e, by unfold boucle; simp [h0]⟩
  | succ n ih =>
    intro e hI hn
    by_cases h0 : e.finCalc = 0
    · obtain ⟨r, e1, hit⟩ := iteration_possible P nBloc W e hW hI h0
      have hI1 := invariant_iteration P nBloc W e e1 r hI h0 hit
      have hr : r ≠ MAITRE := iteration_rang P nBloc W e e1 r hI hit
      obtain ⟨_, _, _, _, _, _, _, hrec, _, _⟩ := iteration_champs P nBloc e e1 r hit hr
      obtain ⟨ordre, e', h⟩ := ih e1 hI1 (by rw [hrec]; omega)
      refine ⟨r :: ordre, e', ?_⟩
      unfold boucle
      simp only [h0, if_true, hit]
      exact h
    · exact ⟨[], e, by unfold boucle; simp [h0]⟩

/-- The coordinator ends exactly when its receive loop does; it then records the
call of `sauver_rasterfile`. -/
theorem maitre_some (P : Params) (p : Nat) (ordre : List Nat) (e : Etat) (hnlin : 0 < P.nlin)
    (h : maitre P p ordre = some e) :
    ∃ e0, boucle P ((P.h / P.nlin : Nat) : Int) ordre (amorcer p Etat.initial) = some e0 ∧
      e = { e0 with trace := e0.trace ++ [Evenement.sauvegarde P.w P.h] } := by
  unfold maitre at h
  rw [if_neg (by omega)] at h
  simp only at h
  cases hb : boucle P ((P.h / P.nlin : Nat) : Int) ordre (amorcer p Etat.initial) with
  | none => rw [hb] at h; simp at h
  | some e0 =>
    rw [hb] at h
    injection h with h
    exact ⟨e0, rfl, h.symm⟩

/-- At the end of the loop every block number handed out has come back. -/
theorem invariant_fin (nBloc : Int) (W : Nat) (e : Etat) (hI : Invariant nBloc W e)
    (hfin : e.finCalc ≠ 0) :
    e.nBloc_recu = nBloc ∧ e.num_bloc = nBloc ∧
    (recus e.trace).Perm ((List.range nBloc.toNat).map (fun n : Nat => (n : Int))) := by
  have hrec : e.nBloc_recu = nBloc := by
    rcases hI.fin with ⟨h1, _⟩ | ⟨_, h2⟩
    · exact absurd h1 hfin
    · exact h2
  have hlen := hI.distribues.length_eq
  simp only [List.length_append, List.length_map, List.length_range] at hlen
  have hb := hI.borne
  have hc := hI.compte
  have hnb : e.num_bloc = nBloc := by omega
  have hre : reels e.attente = [] := List.eq_nil_of_length_eq_zero (by omega)
  have hd := hI.distribues
  rw [hre, List.append_nil, hnb] at hd
  exact ⟨hrec, hnb, hd⟩

/-- C10: with `W` workers, `1 ≤ W ≤ nBloc`, the coordinator of
mandel_dynamique.c has a complete run, and in whatever order the results
arrive every block number it sends lies in `[0, nBloc)` and at the end of the
receive loop the block numbers received are those of `[0, nBloc)`, each once. -/
theorem maitre_blocs (P : Params) (W : Nat) (hnlin : 0 < P.nlin) (hW : 1 ≤ W)
    (hWn : W ≤ P.h / P.nlin) :
    (∃ ordre e, maitre P (W + 1) ordre = some e) ∧
    ∀ ordre e, maitre P (W + 1) ordre = some e →
      (∀ v ∈ envoyes e.trace, v ≠ -1 → 0 ≤ v ∧ v < ((P.h / P.nlin : Nat) : Int)) ∧
      (recus e.trace).Perm ((List.range (P.h / P.nlin)).map (fun n : Nat => (n : Int))) := by
  have hI0 : Invariant ((P.h / P.nlin : Nat) : Int) W (amorcer (W + 1) Etat.initial) :=
    invariant_amorcer _ W hW (by exact_mod_cast hWn)
  constructor
  · obtain ⟨ordre, e0, h⟩ := boucle_existe P ((P.h / P.nlin : Nat) : Int) W hW _ _ hI0 (le_refl _)
    refine ⟨ordre, { e0 with trace := e0.trace ++ [Evenement.sauvegarde P.w P.h] }, ?_⟩
    unfold maitre
    rw [if_neg (by omega)]
    simp only [h]
  · intro ordre e h
    obtain ⟨e0, hb, rfl⟩ := maitre_some P (W + 1) ordre e hnlin h
    obtain ⟨hI, hfin⟩ := invariant_boucle P _ W ordre _ e0 hI0 hb
    obtain ⟨_, hnb, hperm⟩ := invariant_fin _ W e0 hI hfin
    constructor
    · intro v hv hv1
      simp only [envoyes_append] at hv
      have hv' : v ∈ envoyes e0.trace := by
        rcases List.mem_append.mp hv with h' | h'
        · exact h'
        · simp [envoyes] at h'
      have hmem : v ∈ (envoyes e0.trace).filter (fun v => v ≠ -1) :=
        List.mem_filter.mpr ⟨hv', by simpa using hv1⟩
      rw [hI.assignes, hnb] at hmem
      obtain ⟨n, hn, rfl⟩ := List.mem_map.mp hmem
      have := List.mem_range.mp hn
      simp only [Int.toNat_ofNat] at this
      exact ⟨by omega, by exact_mod_cast this⟩
    · simp only [recus_append]
      simpa [recus] using hperm

theorem maitre_blocs_witness :
    0 < grille4.nlin ∧ 1 ≤ 2 ∧ 2 ≤ grille4.h / grille4.nlin ∧
    (∃ e, maitre grille4 (2 + 1) [2, 1] = some e ∧
      (∀ v ∈ envoyes e.trace, v ≠ -1 → 0 ≤ v ∧ v < ((grille4.h / grille4.nlin : Nat) : Int)) ∧
      (recus e.trace).Perm
        ((List.range (grille4.h / grille4.nlin)).map (fun n : Nat => (n : Int)))) := by
  refine ⟨by decide, by decide, by decide, ?_⟩
  cases h : maitre grille4 (2 + 1) [2, 1] with
  | none =>
    have : (maitre grille4 (2 + 1) [2, 1]).isSome = true := by decide!
    rw [h] at this
    exact absurd this (by decide)
  | some e =>
    exact ⟨e, rfl,
      (maitre_blocs grille4 2 (by decide) (by decide) (by decide)).2 [2, 1] e h⟩

/-! ## The image buffer -/

/-- Entry `r * w + j` of the block computed for number `B` is the pixel of row
`B * nlin + r` and column `j`. -/
theorem traiter_bloc_pixel (P : Params) (B r j : Nat) (hr : r < P.nlin) (hj : j < P.w) :
    (traiter_bloc P (B : Int))[r * P.w + j]? = some (pixel P (B * P.nlin + r) j) := by
  unfold traiter_bloc pixel
  rw [getElem?_lignes P P.nlin _ r j hr hj]
  congr 2
  push_cast
  ring

theorem length_traiter_bloc (P : Params) (b : Int) :
    (traiter_bloc P b).length = P.nlin * P.w := by
  unfold traiter_bloc
  rw [length_lignes]

/-- Storing the block of number `B` at `ima + B*nlin*w` puts the right pixel in
every cell of its rows. -/
theorem ecrire_dedans (P : Params) (ima : Int → Option Nat) (B r j : Nat) (hr : r < P.nlin)
    (hj : j < P.w) :
    ecrire ima ((B : Int) * P.nlin * P.w) (traiter_bloc P (B : Int))
        (((B * P.nlin + r) * P.w + j : Nat) : Int) =
      some (pixel P (B * P.nlin + r) j) := by
  unfold ecrire
  rw [length_traiter_bloc]
  have hlt : r * P.w + j < P.nlin * P.w := by
    have : (r + 1) * P.w ≤ P.nlin * P.w := Nat.mul_le_mul_right _ hr
    rw [Nat.succ_mul] at this
    omega
  have hk : (((B * P.nlin + r) * P.w + j : Nat) : Int) - (B : Int) * P.nlin * P.w =
      ((r * P.w + j : Nat) : Int) := by
    push_cast
    ring
  have hcond : (B : Int) * P.nlin * P.w ≤ (((B * P.nlin + r) * P.w + j : Nat) : Int) ∧
      (((B * P.nlin + r) * P.w + j : Nat) : Int) <
        (B : Int) * P.nlin * P.w + ((P.nlin * P.w : Nat) : Int) := by
    constructor
    · have : (0 : Int) ≤ ((r * P.w + j : Nat) : Int) := Int.ofNat_nonneg _
      omega
    · have : ((r * P.w + j : Nat) : Int) < ((P.nlin * P.w : Nat) : Int) := by
        exact_mod_cast hlt
      omega
  rw [if_pos hcond, hk, Int.toNat_ofNat]
  exact traiter_bloc_pixel P B r j hr hj

/-- Storing the block of number `B` leaves every cell of the image either with
the right pixel or as it was. -/
theorem ecrire_cellule (P : Params) (ima : Int → Option Nat) (B i j : Nat) (hj : j < P.w) :
    ecrire ima ((B : Int) * P.nlin * P.w) (traiter_bloc P (B : Int))
        ((i * P.w + j : Nat) : Int) = some (pixel P i j) ∨
    ecrire ima ((B : Int) * P.nlin * P.w) (traiter_bloc P (B : Int))
        ((i * P.w + j : Nat) : Int) = ima ((i * P.w + j : Nat) : Int) := by
  by_cases hcond : (B : Int) * P.nlin * P.w ≤ ((i * P.w + j : Nat) : Int) ∧
      ((i * P.w + j : Nat) : Int) <
        (B : Int) * P.nlin * P.w + ((traiter_bloc P (B : Int)).length : Int)
  · left
    rw [length_traiter_bloc] at hcond
    obtain ⟨h1, h2⟩ := hcond
    have h1' : B * P.nlin * P.w ≤ i * P.w + j := by exact_mod_cast h1
    have h2' : i * P.w + j < (B * P.nlin + P.nlin) * P.w := by
      have : i * P.w + j < B * P.nlin * P.w + P.nlin * P.w := by exact_mod_cast h2
      rw [Nat.add_mul]
      exact this
    have hw : 0 < P.w := by omega
    have hdiv : (i * P.w + j) / P.w = i := by
      rw [Nat.add_comm, Nat.add_mul_div_right _ _ hw, Nat.div_eq_of_lt hj, Nat.zero_add]
    have hi1 : B * P.nlin ≤ i := by
      rw [← hdiv]
      exact (Nat.le_div_iff_mul_le hw).mpr h1'
    have hi2 : i < B * P.nlin + P.nlin := by
      rw [← hdiv]
      exact (Nat.div_lt_iff_lt_mul hw).mpr h2'
    have hi : i = B * P.nlin + (i - B * P.nlin) := by omega
    have := ecrire_dedans P ima B (i - B * P.nlin) j (by omega) hj
    rw [← hi] at this
    exact this
  · right
    unfold ecrire
    rw [if_neg hcond]

theorem imageJuste_initial (P : Params) (W : Nat) :
    ImageJuste P (amorcer (W + 1) Etat.initial) := by
  rw [amorcer_initial]
  exact
    { juste := by intro i j _ v h; simp at h
      ecrit := by intro B hB; simp [recus_map_envoi] at hB }

/-- One iteration of the receive loop keeps the image right. -/
theorem imageJuste_iteration (P : Params) (nBloc : Int) (W : Nat) (e e' : Etat) (r : Nat)
    (hI : Invariant nBloc W e) (hJ : ImageJuste P e)
    (h : iteration P nBloc e r = some e') : ImageJuste P e' := by
  have hr : r ≠ MAITRE := iteration_rang P nBloc W e e' r hI h
  obtain ⟨m, hmem, hm1, hs, htr, _, _, _, _, hima⟩ := iteration_champs P nBloc e e' r h hr
  have hm2 : m.2 ∈ reels e.attente := by
    unfold reels
    exact List.mem_filter.mpr ⟨List.mem_map.mpr ⟨m, hmem, rfl⟩, by simpa using hs⟩
  have hrange := hI.distribues.subset (List.mem_append_right _ hm2)
  obtain ⟨B, _, hB⟩ := List.mem_map.mp hrange
  have hrecus : recus e'.trace = recus e.trace ++ [m.2] := by
    rw [htr, recus_append]; rfl
  rw [← hB] at hima hrecus
  refine { juste := ?_, ecrit := ?_ }
  · intro i j hj v hv
    rw [hima] at hv
    rcases ecrire_cellule P e.ima B i j hj with h' | h'
    · rw [h'] at hv
      injection hv with hv
      exact hv.symm
    · rw [h'] at hv
      exact hJ.juste i j hj v hv
  · intro B' hB' r' j hr' hj
    rw [hima]
    rw [hrecus] at hB'
    rcases List.mem_append.mp hB' with h' | h'
    · rcases ecrire_cellule P e.ima B (B' * P.nlin + r') j hj with h'' | h''
      · exact h''
      · rw [h'']
        exact hJ.ecrit B' h' r' j hr' hj
    · have : B' = B := by simpa using h'
      subst this
      exact ecrire_dedans P e.ima B' r' j hr' hj

theorem imageJuste_boucle (P : Params) (nBloc : Int) (W : Nat) (ordre : List Nat) :
    ∀ e e' : Etat, Invariant nBloc W e → ImageJuste P e → boucle P nBloc ordre e = some e' →
      ImageJuste P e' := by
  induction ordre with
  | nil =>
    intro e e' _ hJ h
    unfold boucle at h
    by_cases h0 : e.finCalc = 0
    · simp [h0] at h
    · simp only [h0, if_false] at h
      injection h with h
      subst h
      exact hJ
  | cons r reste ih =>
    intro e e' hI hJ h
    unfold boucle at h
    by_cases h0 : e.finCalc = 0
    · simp only [h0, if_true] at h
      cases hit : iteration P nBloc e r with
      | none => rw [hit] at h; simp at h
      | some e1 =>
        rw [hit] at h
        exact ih e1 e' (invariant_iteration P nBloc W e e1 r hI h0 hit)
          (imageJuste_iteration P nBloc W e e1 r hI hJ hit) h
    · simp only [h0, if_false] at h
      injection h with h
      subst h
      exact hJ

/-- With `W` workers, `1 ≤ W ≤ nBloc`, and a height that is a multiple of the
block height, in whatever order the results arrive every pixel `(i, j)` of the
image holds `xy2color (xmin + j*xinc) (ymin + i*yinc) prof` when the
coordinator calls `sauver_rasterfile`. -/
theorem maitre_image (P : Params) (W : Nat) (hnlin : 0 < P.nlin) (hdiv : P.h % P.nlin = 0)
    (hW : 1 ≤ W) (hWn : W ≤ P.h / P.nlin) (ordre : List Nat) (e : Etat)
    (h : maitre P (W + 1) ordre = some e) (i j : Nat) (hi : i < P.h) (hj : j < P.w) :
    e.ima ((i * P.w + j : Nat) : Int) = some (pixel P i j) := by
  have hI0 : Invariant ((P.h / P.nlin : Nat) : Int) W (amorcer (W + 1) Etat.initial) :=
    invariant_amorcer _ W hW (by exact_mod_cast hWn)
  obtain ⟨e0, hb, rfl⟩ := maitre_some P (W + 1) ordre e hnlin h
  obtain ⟨hI, hfin⟩ := invariant_boucle P _ W ordre _ e0 hI0 hb
  obtain ⟨_, _, hperm⟩ := invariant_fin _ W e0 hI hfin
  have hJ := imageJuste_boucle P _ W ordre _ e0 hI0 (imageJuste_initial P W) hb
  have hB : ((i / P.nlin : Nat) : Int) ∈ recus e0.trace := by
    apply hperm.symm.subset
    apply List.mem_map.mpr
    refine ⟨i / P.nlin, List.mem_range.mpr ?_, rfl⟩
    simp only [Int.toNat_ofNat]
    apply (Nat.div_lt_iff_lt_mul hnlin).mpr
    have := Nat.div_mul_cancel (Nat.dvd_of_mod_eq_zero hdiv)
    omega
  have := hJ.ecrit (i / P.nlin) hB (i % P.nlin) j (Nat.mod_lt _ hnlin) hj
  have hi' : i / P.nlin * P.nlin + i % P.nlin = i := by
    rw [Nat.mul_comm]; exact Nat.div_add_mod i P.nlin
  rw [hi'] at this
  exact this

/-- With `W` workers, `1 ≤ W ≤ nBloc`, in whatever order the results arrive the
coordinator sends the block numbers `0, 1, ..., nBloc - 1` in this order and
`W` sentinels, and its receive loop ends after `nBloc` results. -/
theorem maitre_comptes (P : Params) (W : Nat) (hnlin : 0 < P.nlin) (hW : 1 ≤ W)
    (hWn : W ≤ P.h / P.nlin) (ordre : List Nat) (e : Etat)
    (h : maitre P (W + 1) ordre = some e) :
    (envoyes e.trace).filter (fun v => v ≠ -1) =
      (List.range (P.h / P.nlin)).map (fun n : Nat => (n : Int)) ∧
    ((envoyes e.trace).filter (fun v => v = -1)).length = W ∧
    (recus e.trace).length = P.h / P.nlin := by
  have hI0 : Invariant ((P.h / P.nlin : Nat) : Int) W (amorcer (W + 1) Etat.initial) :=
    invariant_amorcer _ W hW (by exact_mod_cast hWn)
  obtain ⟨e0, hb, rfl⟩ := maitre_some P (W + 1) ordre e hnlin h
  obtain ⟨hI, hfin⟩ := invariant_boucle P _ W ordre _ e0 hI0 hb
  obtain ⟨hrec, hnb, hperm⟩ := invariant_fin _ W e0 hI hfin
  have he : envoyes (e0.trace ++ [Evenement.sauvegarde P.w P.h]) = envoyes e0.trace := by
    rw [envoyes_append]; simp [envoyes]
  have hr : recus (e0.trace ++ [Evenement.sauvegarde P.w P.h]) = recus e0.trace := by
    rw [recus_append]; simp [recus]
  simp only [he, hr]
  refine ⟨?_, ?_, ?_⟩
  · rw [hI.assignes, hnb, Int.toNat_ofNat]
  · have := hI.sentinelles
    rw [hnb, hrec] at this
    omega
  · have := hperm.length_eq
    simpa using this

/-- With `W` workers, `1 ≤ W ≤ h / 8`, and a height that is a multiple of 8,
blocks of 8 rows and blocks of 1 row give the same image, in whatever orders
the results arrive. -/
theorem maitre_image_8_1 (P : Params) (W : Nat) (h8 : P.h % 8 = 0) (hW : 1 ≤ W)
    (hWn : W ≤ P.h / 8) (ordre8 ordre1 : List Nat) (e8 e1 : Etat)
    (hr8 : maitre { P with nlin := 8 } (W + 1) ordre8 = some e8)
    (hr1 : maitre { P with nlin := 1 } (W + 1) ordre1 = some e1)
    (i j : Nat) (hi : i < P.h) (hj : j < P.w) :
    e8.ima ((i * P.w + j : Nat) : Int) = e1.ima ((i * P.w + j : Nat) : Int) := by
  have a := maitre_image { P with nlin := 8 } W (by norm_num) h8 hW hWn ordre8 e8 hr8 i j hi hj
  have hW1 : W ≤ P.h / 1 := by
    have : P.h / 8 ≤ P.h := Nat.div_le_self _ _
    simp only [Nat.div_one]
    omega
  have b := maitre_image { P with nlin := 1 } W (by norm_num) (Nat.mod_one _) hW hW1 ordre1 e1
    hr1 i j hi hj
  simp only at a b
  rw [a, b]
  rfl

/-! ## Runs in which the coordinator goes wrong -/

/-- C4 at 2 workers and 1 block (height 8, blocks of 8 rows): in both possible
orders the coordinator of mandel_dynamique.c sends the two block numbers 0 and
1 and a single sentinel; worker 2 is primed with block number 1 and, when its
result is not the one received, never gets the sentinel. -/
theorem maitre_deux_ouvriers_un_bloc :
    (grille8 8).h / (grille8 8).nlin = 1 ∧
    (maitre (grille8 8) (2 + 1) [1]).map (fun e => e.trace) =
      some [Evenement.envoi 1 0, Evenement.envoi 2 1, Evenement.reception 1 0,
        Evenement.envoi 1 (-1), Evenement.sauvegarde 3 8] ∧
    (maitre (grille8 8) (2 + 1) [2]).map (fun e => e.trace) =
      some [Evenement.envoi 1 0, Evenement.envoi 2 1, Evenement.reception 2 1,
        Evenement.envoi 2 (-1), Evenement.sauvegarde 3 8] := by
  refine ⟨by decide, by decide!, by decide!⟩

/-- C1 at 2 workers and 1 block (height 8, blocks of 8 rows), the result of
worker 2 arriving first: when the receive loop ends pixel `(0, 0)` has never
been written, the block received has been stored past the end of the image
(offset 24 = 3 * 8), and the run is over. -/
theorem maitre_image_incomplete :
    (grille8 8).h % (grille8 8).nlin = 0 ∧ 0 < (grille8 8).w ∧ 0 < (grille8 8).h ∧
    (maitre (grille8 8) (2 + 1) [2]).map (fun e => (e.finCalc, e.ima 0, e.ima 24)) =
      some (-1, none, some 1) ∧
    pixel (grille8 8) 0 0 = 1 := by
  refine ⟨by decide, by decide, by decide, by decide!, by decide!⟩

/-- C7 at 2 workers and height 8: with blocks of 8 rows and the result of worker
2 arriving first pixel `(0, 0)` is never written, with blocks of 1 row it
holds 1. -/
theorem maitre_bloc8_bloc1 :
    (maitre (grille8 8) (2 + 1) [2]).map (fun e => e.ima 0) = some none ∧
    (maitre (grille8 1) (2 + 1) [1, 2, 1, 2, 1, 2, 1, 2]).map (fun e => e.ima 0) =
      some (some 1) := by
  refine ⟨by decide!, by decide!⟩

/-- C5 at height 10 and blocks of 3 rows, one worker: the coordinator of
mandel_dynamique.c hands out the blocks 0, 1 and 2 and calls
`sauver_rasterfile`; no error is reported, and the last row of the image has
never been written. -/
theorem maitre_hauteur_non_multiple :
    grille10.h % grille10.nlin ≠ 0 ∧
    (maitre grille10 (1 + 1) [1, 1, 1]).map (fun e => e.trace) =
      some [Evenement.envoi 1 0, Evenement.reception 1 0, Evenement.envoi 1 1,
        Evenement.reception 1 1, Evenement.envoi 1 2, Evenement.reception 1 2,
        Evenement.envoi 1 (-1), Evenement.sauvegarde 3 10] ∧
    (maitre grille10 (1 + 1) [1, 1, 1]).map (fun e => e.ima (9 * 3 + 0)) = some none := by
  refine ⟨by decide, by decide!, by decide!⟩

/-- The sibling mandel_dyn.c does test the height: with a height that is not a
multiple of 8 its coordinator reports an error, sends nothing and does not
call `sauver_rasterfile`. -/
theorem maitre_dyn_hauteur_non_multiple (w h : Nat) (contenu : Nat → Int → List Nat) (P : Nat)
    (ordre : List Nat) (hh : h % 8 ≠ 0) :
    (maitre_dyn w h contenu P ordre).map (fun e => e.trace) = some [Evenement.erreur] := by
  unfold maitre_dyn
  by_cases hP : P > 0
  · simp only [hP, hh, if_true, if_false]
    rfl
  · simp only [hP, if_false]
    rfl

/-- C9 at 2 workers and height 16 (2 blocks), the result of worker 1 arriving
first: the coordinator of mandel_dyn.c leaves its loop after one result, sends
the out-of-range block number 2 and then the sentinel to worker 1, and calls
`sauver_rasterfile` without having received block 1. -/
theorem maitre_dyn_sauve_trop_tot :
    16 % 8 = 0 ∧ 16 / 8 = 2 ∧
    ∀ contenu : Nat → Int → List Nat,
      (maitre_dyn 3 16 contenu (2 + 1) [1]).map (fun e => e.trace) =
        some [Evenement.envoi 1 0, Evenement.envoi 2 1, Evenement.reception 1 0,
          Evenement.envoi 1 2, Evenement.envoi 1 (-1), Evenement.sauvegarde 3 16] ∧
      (maitre_dyn 3 16 contenu (2 + 1) [1]).map (fun e => recus e.trace) = some [0] :=
  ⟨rfl, rfl, fun _ => ⟨rfl, rfl⟩⟩

/-! ## The palette -/

/-- The loop `while (i--)` entered with `i = n` writes `f (n - 1)` first and
`f 0` last: its byte number `k` is `f (n - 1 - k)`. -/
theorem getElem?_boucle_palette (f : Int → Nat) (n : Nat) :
    ∀ k : Nat, k < n → (boucle_palette f n)[k]? = some (f ((n - 1 - k : Nat) : Int)) := by
  induction n with
  | zero => intro k hk; omega
  | succ n ih =>
    intro k hk
    cases k with
    | zero => simp [boucle_palette]
    | succ k =>
      simp only [boucle_palette, List.getElem?_cons_succ]
      rw [ih k (by omega)]
      congr 3
      omega

theorem length_octetsEntete (f : rasterfile) : (octetsEntete f).length = 32 := rfl

/-- C11: in the stream written by `sauver_rasterfile` (32 header bytes, then the
red, green and blue sections of 256 bytes each) the palette is written in
descending index order: for `k` in `[0, 255]`, byte `k` of the red section is
`COMPOSANTE_ROUGE (255 - k)`, byte `k` of the green section is
`COMPOSANTE_VERT (255 - k)` and byte `k` of the blue section is
`COMPOSANTE_BLEU (255 - k)`; the slot a pixel value `v` selects therefore holds
the colour computed for index `255 - v`. -/
theorem sauver_rasterfile_palette (E : Externes) (largeur hauteur : Int) (p flux : List Nat)
    (hf : sauver_rasterfile E true largeur hauteur p = some flux) (k : Nat) (hk : k ≤ 255) :
    flux[32 + k]? = some (COMPOSANTE_ROUGE E (255 - (k : Int))) ∧
    flux[32 + 256 + k]? = some (COMPOSANTE_VERT E (255 - (k : Int))) ∧
    flux[32 + 256 + 256 + k]? = some (COMPOSANTE_BLEU E (255 - (k : Int))) := by
  rw [sauver_rasterfile_eq] at hf
  injection hf with hf
  subst hf
  have hcast : ((256 - 1 - k : Nat) : Int) = 255 - (k : Int) := by omega
  have hH := length_octetsEntete (entete E largeur hauteur)
  have hR := length_boucle_palette (COMPOSANTE_ROUGE E) 256
  have hV := length_boucle_palette (COMPOSANTE_VERT E) 256
  have hB := length_boucle_palette (COMPOSANTE_BLEU E) 256
  refine ⟨?_, ?_, ?_⟩
  · rw [List.getElem?_append_left (by simp only [List.length_append, hH, hR, hV, hB]; omega),
      List.getElem?_append_left (by simp only [List.length_append, hH, hR, hV]; omega),
      List.getElem?_append_left (by simp only [List.length_append, hH, hR]; omega),
      List.getElem?_append_right (by rw [hH]; omega), hH,
      show 32 + k - 32 = k by omega,
      getElem?_boucle_palette _ 256 k (by omega), hcast]
  · rw [List.getElem?_append_left (by simp only [List.length_append, hH, hR, hV, hB]; omega),
      List.getElem?_append_left (by simp only [List.length_append, hH, hR, hV]; omega),
      List.getElem?_append_right (by simp only [List.length_append, hH, hR]; omega),
      List.length_append, hH, hR,
      show 32 + 256 + k - (32 + 256) = k by omega,
      getElem?_boucle_palette _ 256 k (by omega), hcast]
  · rw [List.getElem?_append_left (by simp only [List.length_append, hH, hR, hV, hB]; omega),
      List.getElem?_append_right (by simp only [List.length_append, hH, hR, hV]; omega),
      List.length_append, List.length_append, hH, hR, hV,
      show 32 + 256 + 256 + k - (32 + 256 + 256) = k by omega,
      getElem?_boucle_palette _ 256 k (by omega), hcast]

theorem sauver_rasterfile_palette_witness :
    3 ≤ 255 ∧
    ∃ flux, sauver_rasterfile externes0 true 2 1 [7, 9] = some flux ∧
      flux[32 + 3]? = some 252 ∧ flux[32 + 256 + 3]? = some 252 ∧
      flux[32 + 256 + 256 + 3]? = some 6 ∧ COMPOSANTE_ROUGE externes0 3 = 3 := by
  refine ⟨by decide, _, sauver_rasterfile_eq _ _ _ _, ?_⟩
  have h := sauver_rasterfile_palette externes0 2 1 [7, 9] _ (sauver_rasterfile_eq _ _ _ _) 3
    (by decide)
  have e1 : COMPOSANTE_ROUGE externes0 (255 - ((3 : Nat) : Int)) = 252 := by decide
  have e2 : COMPOSANTE_VERT externes0 (255 - ((3 : Nat) : Int)) = 252 := by decide
  have e3 : COMPOSANTE_BLEU externes0 (255 - ((3 : Nat) : Int)) = 6 := by decide
  rw [e1, e2, e3] at h
  exact ⟨h.1, h.2.1, h.2.2, by decide⟩

end Mandel
